import Mathlib

/-!
# Verification of the bcder value-encoding core

A shallow embedding of the `Values` combinator framework of
`src/encode/values.rs` and the canonical integer types of `src/int.rs`,
together with proofs of the specified properties.

Bytes are modelled as natural numbers (content octets are `< 256` in the
real program; the embedding follows the code's byte-level operations
literally, using `&&&` for bit tests). Byte buffers and sinks are lists of
bytes. A fallible sink (`io::Write`) is modelled as a state type `σ` with a
write-all operation `σ → List Nat → Option σ`; `none` is an I/O error.
Fallible Rust functions return `Option` (`none` = error).
-/

namespace Bcder

/-- Modelled from the spec: the external `Mode` selector type, one of
BER, DER, CER, threaded through every encode call. -/
inductive Mode : Type where
  | Ber
  | Der
  | Cer
deriving DecidableEq, Repr

/-- Modelled from the spec: the external `Tag` type. A tag holds its
identifier octet (without the constructed bit); it knows its own encoded
byte length and how to write itself with a constructed/primitive flag,
the constructed bit being bit `0x20` of the identifier octet. -/
structure Tag : Type where
  number : Nat
deriving DecidableEq, Repr

namespace Tag

/-- Modelled from the spec: the well-known INTEGER tag constant (`0x02`). -/
def INTEGER : Tag := ⟨2⟩

/-- Modelled from the spec: the octets `Tag::write_encoded` produces for
the given constructed/primitive flag. -/
def writeBytes (t : Tag) (constructed : Bool) : List Nat :=
  if constructed then [t.number ||| 0x20] else [t.number]

/-- Modelled from the spec: `Tag::encoded_len`, the length of the
identifier octets. -/
def encoded_len (_ : Tag) : Nat := 1

end Tag

/-- The big-endian base-256 digits of `n`, most significant first
(`[n]` when `n < 256`). Used by the long form of the definite length and
by the native-integer encoding. -/
def beBytes (n : Nat) : List Nat :=
  if _h : n < 256 then [n]
  else beBytes (n / 256) ++ [n % 256]
termination_by n
decreasing_by exact Nat.div_lt_self (by omega) (by omega)

/-- The numeric value of a big-endian octet sequence. -/
def beVal (ds : List Nat) : Nat :=
  ds.foldl (fun acc d => acc * 256 + d) 0

/-- Modelled from the spec: the external `Length` type — either a definite
non-negative byte count or the indefinite marker. -/
inductive Length : Type where
  | Definite (n : Nat)
  | Indefinite
deriving DecidableEq, Repr

namespace Length

/-- Modelled from the spec: the octets `Length::write_encoded` produces —
BER short form (one octet) for a definite count below 128, BER long form
(`0x80 + k` followed by the `k` big-endian count octets) otherwise, and
the single marker octet `0x80` for the indefinite form. -/
def writeBytes : Length → List Nat
  | Definite n =>
    if n < 128 then [n]
    else (0x80 + (beBytes n).length) :: beBytes n
  | Indefinite => [0x80]

/-- Modelled from the spec: `Length::encoded_len`, the length of the
length octets. -/
def encoded_len (l : Length) : Nat := (writeBytes l).length

end Length

/-! ## The `Values` combinator tree (`src/encode/values.rs`)

The trait `Values` is open in Rust; the embedding closes it over the
combinators of this core plus an arbitrary primitive leaf `prim len bytes`
standing for any implementor that reports length `len mode` and writes the
octets `bytes mode` (with a single sink write). Nested `List`/`Option`
occurrences are unfolded into a mutual inductive so that structural
recursion and induction stay elementary:
`ValueList` mirrors `List`, the constructors `optSome`/`optNone` mirror
`Option::Some`/`Option::None`, and `slice`, `vec` and `iter` hold their
elements as a `ValueList`. -/

mutual

inductive Value : Type where
  | prim (len : Mode → Nat) (bytes : Mode → List Nat)
  | ref (v : Value)
  | pair (a b : Value)
  | triple (a b c : Value)
  | quad (a b c d : Value)
  | optSome (v : Value)
  | optNone
  | slice (vs : ValueList)
  | vec (vs : ValueList)
  | constructed (tag : Tag) (inner : Value)
  | choice2One (v : Value)
  | choice2Two (v : Value)
  | choice3One (v : Value)
  | choice3Two (v : Value)
  | choice3Three (v : Value)
  | iter (vs : ValueList)
  | nothing

inductive ValueList : Type where
  | nil
  | cons (v : Value) (vs : ValueList)

end

namespace ValueList

/-- The elements of a `ValueList` as a plain list. -/
def toList : ValueList → List Value
  | nil => []
  | cons v vs => v :: toList vs

end ValueList

/-- `EndOfValue::encoded_len`: always 2 (from `src/encode/values.rs`). -/
def endOfValueEncodedLen (_ : Mode) : Nat := 2

/-- The octet buffer `EndOfValue::write_encoded` writes: `[0, 0]`
(from `src/encode/values.rs`). -/
def endOfValueBytes : List Nat := [0, 0]

mutual

/-- `Values::encoded_len` for every implementor of the core, from
`src/encode/values.rs`: each equation is the corresponding impl's
`encoded_len` body. -/
def encodedLen : Value → Mode → Nat
  | .prim len _, mode => len mode
  | .ref v, mode => encodedLen v mode
  | .pair a b, mode => encodedLen a mode + encodedLen b mode
  | .triple a b c, mode =>
      encodedLen a mode + encodedLen b mode + encodedLen c mode
  | .quad a b c d, mode =>
      encodedLen a mode + encodedLen b mode + encodedLen c mode
        + encodedLen d mode
  | .optSome v, mode => encodedLen v mode
  | .optNone, _ => 0
  | .slice vs, mode => encodedLenList vs mode
  | .vec vs, mode => encodedLenList vs mode
  | .constructed tag inner, mode =>
      let len := encodedLen inner mode
      let len := len + (match mode with
        | .Ber | .Der => (Length.Definite len).encoded_len
        | .Cer =>
            Length.Indefinite.encoded_len + endOfValueEncodedLen mode)
      tag.encoded_len + len
  | .choice2One v, mode => encodedLen v mode
  | .choice2Two v, mode => encodedLen v mode
  | .choice3One v, mode => encodedLen v mode
  | .choice3Two v, mode => encodedLen v mode
  | .choice3Three v, mode => encodedLen v mode
  | .iter vs, mode => encodedLenList vs mode
  | .nothing, _ => 0

/-- Sum of the elements' `encoded_len` (the `map(...).sum()` of the
slice/`Vec` impls and the `Iter` impl). -/
def encodedLenList : ValueList → Mode → Nat
  | .nil, _ => 0
  | .cons v vs, mode => encodedLen v mode + encodedLenList vs mode

end

mutual

/-- `Values::write_encoded` for every implementor of the core, from
`src/encode/values.rs`, against a sink with state `σ` and write-all
operation `wa` (`none` = I/O error, propagated immediately). -/
def writeEncoded {σ : Type} (wa : σ → List Nat → Option σ) :
    Value → Mode → σ → Option σ
  | .prim _ bytes, mode, s => wa s (bytes mode)
  | .ref v, mode, s => writeEncoded wa v mode s
  | .pair a b, mode, s =>
      match writeEncoded wa a mode s with
      | none => none
      | some s => writeEncoded wa b mode s
  | .triple a b c, mode, s =>
      match writeEncoded wa a mode s with
      | none => none
      | some s =>
        match writeEncoded wa b mode s with
        | none => none
        | some s => writeEncoded wa c mode s
  | .quad a b c d, mode, s =>
      match writeEncoded wa a mode s with
      | none => none
      | some s =>
        match writeEncoded wa b mode s with
        | none => none
        | some s =>
          match writeEncoded wa c mode s with
          | none => none
          | some s => writeEncoded wa d mode s
  | .optSome v, mode, s => writeEncoded wa v mode s
  | .optNone, _, s => some s
  | .slice vs, mode, s => writeEncodedList wa vs mode s
  | .vec vs, mode, s => writeEncodedList wa vs mode s
  | .constructed tag inner, mode, s =>
      match wa s (tag.writeBytes true) with
      | none => none
      | some s =>
        match mode with
        | .Ber | .Der =>
          match wa s (Length.Definite (encodedLen inner mode)).writeBytes with
          | none => none
          | some s => writeEncoded wa inner mode s
        | .Cer =>
          match wa s Length.Indefinite.writeBytes with
          | none => none
          | some s =>
            match writeEncoded wa inner mode s with
            | none => none
            | some s => wa s endOfValueBytes
  | .choice2One v, mode, s => writeEncoded wa v mode s
  | .choice2Two v, mode, s => writeEncoded wa v mode s
  | .choice3One v, mode, s => writeEncoded wa v mode s
  | .choice3Two v, mode, s => writeEncoded wa v mode s
  | .choice3Three v, mode, s => writeEncoded wa v mode s
  | .iter vs, mode, s => writeEncodedList wa vs mode s
  | .nothing, _, s => some s

/-- The element loop of the slice/`Vec`/`Iter` impls: write each element
in order, aborting at the first failure. -/
def writeEncodedList {σ : Type} (wa : σ → List Nat → Option σ) :
    ValueList → Mode → σ → Option σ
  | .nil, _, s => some s
  | .cons v vs, mode, s =>
      match writeEncoded wa v mode s with
      | none => none
      | some s => writeEncodedList wa vs mode s

end

/-- The in-memory `Vec<u8>` sink used by `Values::to_captured`: state is
the bytes written so far; writing appends and never fails. -/
def vecWrite (s : List Nat) (bytes : List Nat) : Option (List Nat) :=
  some (s ++ bytes)

/-- `Values::to_captured` (from `src/encode/values.rs`): run
`write_encoded` into a fresh in-memory buffer, unwrap (`none` would be a
panic), and pair the captured bytes with the mode. -/
def toCaptured (v : Value) (mode : Mode) : Option (List Nat × Mode) :=
  match writeEncoded vecWrite v mode [] with
  | none => none
  | some bytes => some (bytes, mode)

mutual

/-- The byte sequence a value's `write_encoded` appends to an in-memory
sink (derived semantics; `writeEncoded_vecWrite` below ties it to
`writeEncoded`). -/
def output : Value → Mode → List Nat
  | .prim _ bytes, mode => bytes mode
  | .ref v, mode => output v mode
  | .pair a b, mode => output a mode ++ output b mode
  | .triple a b c, mode => output a mode ++ output b mode ++ output c mode
  | .quad a b c d, mode =>
      output a mode ++ output b mode ++ output c mode ++ output d mode
  | .optSome v, mode => output v mode
  | .optNone, _ => []
  | .slice vs, mode => outputList vs mode
  | .vec vs, mode => outputList vs mode
  | .constructed tag inner, mode =>
      tag.writeBytes true ++ (match mode with
        | .Ber | .Der =>
            (Length.Definite (encodedLen inner mode)).writeBytes
              ++ output inner mode
        | .Cer =>
            Length.Indefinite.writeBytes ++ output inner mode
              ++ endOfValueBytes)
  | .choice2One v, mode => output v mode
  | .choice2Two v, mode => output v mode
  | .choice3One v, mode => output v mode
  | .choice3Two v, mode => output v mode
  | .choice3Three v, mode => output v mode
  | .iter vs, mode => outputList vs mode
  | .nothing, _ => []

/-- Concatenation of the elements' outputs in order. -/
def outputList : ValueList → Mode → List Nat
  | .nil, _ => []
  | .cons v vs, mode => output v mode ++ outputList vs mode

end

mutual

/-- Every primitive leaf of the tree honours the `Values` contract:
it reports exactly the length of the bytes it writes, for every mode.
(All combinators preserve this; only the abstract leaves can break it.) -/
def leavesConsistent : Value → Prop
  | .prim len bytes => ∀ mode, len mode = (bytes mode).length
  | .ref v => leavesConsistent v
  | .pair a b => leavesConsistent a ∧ leavesConsistent b
  | .triple a b c =>
      leavesConsistent a ∧ leavesConsistent b ∧ leavesConsistent c
  | .quad a b c d =>
      leavesConsistent a ∧ leavesConsistent b ∧ leavesConsistent c
        ∧ leavesConsistent d
  | .optSome v => leavesConsistent v
  | .optNone => True
  | .slice vs => leavesConsistentList vs
  | .vec vs => leavesConsistentList vs
  | .constructed _ inner => leavesConsistent inner
  | .choice2One v => leavesConsistent v
  | .choice2Two v => leavesConsistent v
  | .choice3One v => leavesConsistent v
  | .choice3Two v => leavesConsistent v
  | .choice3Three v => leavesConsistent v
  | .iter vs => leavesConsistentList vs
  | .nothing => True

/-- List version of `leavesConsistent`. -/
def leavesConsistentList : ValueList → Prop
  | .nil => True
  | .cons v vs => leavesConsistent v ∧ leavesConsistentList vs

end

/-- `total_encoded_len` (from `src/encode/values.rs`): tag length plus
definite length-field length plus content length. -/
def totalEncodedLen (tag : Tag) (content_l : Nat) : Nat :=
  tag.encoded_len + (Length.Definite content_l).encoded_len + content_l

/-- `write_header` (from `src/encode/values.rs`): write the identifier
octets with the given constructed flag, then the definite length octets. -/
def writeHeader {σ : Type} (wa : σ → List Nat → Option σ) (s : σ)
    (tag : Tag) (constructed : Bool) (content_length : Nat) : Option σ :=
  match wa s (tag.writeBytes constructed) with
  | none => none
  | some s => wa s (Length.Definite content_length).writeBytes

/-! ## Canonical integers (`src/int.rs`)

`Integer` and `Unsigned` wrap the raw content octets; the embedding
represents a value of either type by its wrapped buffer. The Rust
`match` over `(res.get(0), res.get(1).map(|x| x & 0x80 != 0))` is
translated arm by arm, in arm order, into an `if` chain (Lean `match`
literal patterns obscure the proofs; the conditions are identical). -/

namespace Integer

/-- `Integer::take_content_from` (from `src/int.rs`), given the full
content octets. Arms in source order: `(Some(0), Some(false))`,
`(Some(0xFF), Some(true))` and `(None, _)` are malformed; everything else
wraps the raw octets unmodified. -/
def take_content_from (res : List Nat) : Option (List Nat) :=
  if res.get? 0 = some 0
      ∧ (res.get? 1).map (fun x => x &&& 0x80 != 0) = some false then none
  else if res.get? 0 = some 0xFF
      ∧ (res.get? 1).map (fun x => x &&& 0x80 != 0) = some true then none
  else if res.get? 0 = none then none
  else some res

end Integer

namespace Unsigned

/-- `Unsigned::take_content_from` (from `src/int.rs`). Arms in source
order: `(Some(0), Some(false))`, `(Some(0xFF), Some(true))`,
`(Some(x), _) if x & 0x80 != 0` and `(None, _)` are malformed; everything
else wraps the raw octets unmodified. -/
def take_content_from (res : List Nat) : Option (List Nat) :=
  if res.get? 0 = some 0
      ∧ (res.get? 1).map (fun x => x &&& 0x80 != 0) = some false then none
  else if res.get? 0 = some 0xFF
      ∧ (res.get? 1).map (fun x => x &&& 0x80 != 0) = some true then none
  else if (res.get? 0).map (fun x => x &&& 0x80 != 0) = some true then none
  else if res.get? 0 = none then none
  else some res

/-- `<Unsigned as PrimitiveContent>::encoded_len` (from `src/int.rs`):
the wrapped buffer's length, for any mode. -/
def encoded_len (buf : List Nat) (_ : Mode) : Nat := buf.length

/-- `<Unsigned as PrimitiveContent>::write_encoded` (from `src/int.rs`):
`write_all` of the wrapped buffer, for any mode. -/
def write_encoded {σ : Type} (wa : σ → List Nat → Option σ)
    (buf : List Nat) (_ : Mode) (s : σ) : Option σ :=
  wa s buf

end Unsigned

/-- Modelled from the spec: `u32::to_encoded_bytes` (the
`PrimitiveContent` impl for `u32`, which is not under `src/`): the
minimal big-endian two's-complement octet sequence of the non-negative
value — its base-256 digits, with a single `0x00` octet prepended exactly
when the most-significant octet would otherwise have its high bit set. -/
def u32ToEncodedBytes (n : Nat) (_ : Mode) : List Nat :=
  let ds := beBytes n
  if (ds.headD 0) &&& 0x80 = 0 then ds else 0 :: ds

/-- `impl From<u32> for Unsigned` (from `src/int.rs`):
`Unsigned(n.to_encoded_bytes(Mode::Der))`, represented by its buffer. -/
def Unsigned.fromU32 (n : Nat) : List Nat :=
  u32ToEncodedBytes n .Der

/-! ## Helper lemmas -/

mutual

/-- Against the never-failing in-memory sink, `write_encoded` always
succeeds and appends exactly `output`. -/
theorem writeEncoded_vecWrite (v : Value) (mode : Mode) (s : List Nat) :
    writeEncoded vecWrite v mode s = some (s ++ output v mode) := by
  cases v with
  | prim len bytes => simp [writeEncoded, output, vecWrite]
  | ref v => simp [writeEncoded, output, writeEncoded_vecWrite v]
  | pair a b =>
      simp [writeEncoded, output, writeEncoded_vecWrite a,
        writeEncoded_vecWrite b]
  | triple a b c =>
      simp [writeEncoded, output, writeEncoded_vecWrite a,
        writeEncoded_vecWrite b, writeEncoded_vecWrite c]
  | quad a b c d =>
      simp [writeEncoded, output, writeEncoded_vecWrite a,
        writeEncoded_vecWrite b, writeEncoded_vecWrite c,
        writeEncoded_vecWrite d]
  | optSome v => simp [writeEncoded, output, writeEncoded_vecWrite v]
  | optNone => simp [writeEncoded, output]
  | slice vs => simp [writeEncoded, output, writeEncodedList_vecWrite vs]
  | vec vs => simp [writeEncoded, output, writeEncodedList_vecWrite vs]
  | constructed tag inner =>
      cases mode with
      | Ber =>
          simp [writeEncoded, output, vecWrite,
            writeEncoded_vecWrite inner]
      | Der =>
          simp [writeEncoded, output, vecWrite,
            writeEncoded_vecWrite inner]
      | Cer =>
          simp [writeEncoded, output, vecWrite,
            writeEncoded_vecWrite inner]
  | choice2One v => simp [writeEncoded, output, writeEncoded_vecWrite v]
  | choice2Two v => simp [writeEncoded, output, writeEncoded_vecWrite v]
  | choice3One v => simp [writeEncoded, output, writeEncoded_vecWrite v]
  | choice3Two v => simp [writeEncoded, output, writeEncoded_vecWrite v]
  | choice3Three v => simp [writeEncoded, output, writeEncoded_vecWrite v]
  | iter vs => simp [writeEncoded, output, writeEncodedList_vecWrite vs]
  | nothing => simp [writeEncoded, output]

/-- List version of `writeEncoded_vecWrite`. -/
theorem writeEncodedList_vecWrite (vs : ValueList) (mode : Mode)
    (s : List Nat) :
    writeEncodedList vecWrite vs mode s = some (s ++ outputList vs mode) := by
  cases vs with
  | nil => simp [writeEncodedList, outputList]
  | cons v vs =>
      simp [writeEncodedList, outputList, writeEncoded_vecWrite v,
        writeEncodedList_vecWrite vs]

end

mutual

/-- When all leaves honour the contract, `output` has exactly the length
reported by `encoded_len`, in every mode. -/
theorem output_length (v : Value) (mode : Mode)
    (h : leavesConsistent v) : (output v mode).length = encodedLen v mode := by
  cases v with
  | prim len bytes => exact (h mode).symm
  | ref v => exact output_length v mode h
  | pair a b =>
      simp [output, encodedLen, output_length a mode h.1,
        output_length b mode h.2]
  | triple a b c =>
      simp [output, encodedLen, output_length a mode h.1,
        output_length b mode h.2.1, output_length c mode h.2.2]
      omega
  | quad a b c d =>
      simp [output, encodedLen, output_length a mode h.1,
        output_length b mode h.2.1, output_length c mode h.2.2.1,
        output_length d mode h.2.2.2]
      omega
  | optSome v => exact output_length v mode h
  | optNone => rfl
  | slice vs => exact outputList_length vs mode h
  | vec vs => exact outputList_length vs mode h
  | constructed tag inner =>
      cases mode with
      | Ber =>
          simp [output, encodedLen, Tag.writeBytes, Tag.encoded_len,
            Length.encoded_len, output_length inner .Ber h]
          omega
      | Der =>
          simp [output, encodedLen, Tag.writeBytes, Tag.encoded_len,
            Length.encoded_len, output_length inner .Der h]
          omega
      | Cer =>
          simp [output, encodedLen, Tag.writeBytes, Tag.encoded_len,
            Length.encoded_len, Length.writeBytes, endOfValueBytes,
            endOfValueEncodedLen, output_length inner .Cer h]
          omega
  | choice2One v => exact output_length v mode h
  | choice2Two v => exact output_length v mode h
  | choice3One v => exact output_length v mode h
  | choice3Two v => exact output_length v mode h
  | choice3Three v => exact output_length v mode h
  | iter vs => exact outputList_length vs mode h
  | nothing => rfl

/-- List version of `output_length`. -/
theorem outputList_length (vs : ValueList) (mode : Mode)
    (h : leavesConsistentList vs) :
    (outputList vs mode).length = encodedLenList vs mode := by
  cases vs with
  | nil => rfl
  | cons v vs =>
      simp [outputList, encodedLenList, output_length v mode h.1,
        outputList_length vs mode h.2]

end

theorem beBytes_ne_nil (n : Nat) : beBytes n ≠ [] := by
  rw [beBytes]
  split
  · simp
  · simp

theorem beVal_beBytes (n : Nat) : beVal (beBytes n) = n := by
  rw [beBytes]
  split
  · simp [beVal]
  · rw [beVal, List.foldl_append, ← beVal, beVal_beBytes (n / 256)]
    simp [beVal]
    omega
termination_by n
decreasing_by exact Nat.div_lt_self (by omega) (by omega)

theorem beVal_cons_zero (ds : List Nat) : beVal (0 :: ds) = beVal ds := by
  simp [beVal]

theorem beBytes_headD_pos (n : Nat) (h : 1 ≤ n) :
    1 ≤ (beBytes n).headD 0 := by
  rw [beBytes]
  split
  · simpa using h
  · rename_i hn
    have ih := beBytes_headD_pos (n / 256) (by omega)
    cases hds : beBytes (n / 256) with
    | nil => exact absurd hds (beBytes_ne_nil _)
    | cons a t => rw [hds] at ih; simpa using ih
termination_by n
decreasing_by exact Nat.div_lt_self (by omega) (by omega)

/-- Every success of `Unsigned::take_content_from` returns the raw
content octets unmodified. -/
theorem unsigned_take_some_eq (c r : List Nat)
    (h : Unsigned.take_content_from c = some r) : r = c := by
  unfold Unsigned.take_content_from at h
  split_ifs at h
  simp_all

/-- Every success of `Integer::take_content_from` returns the raw
content octets unmodified. -/
theorem integer_take_some_eq (c r : List Nat)
    (h : Integer.take_content_from c = some r) : r = c := by
  unfold Integer.take_content_from at h
  split_ifs at h
  simp_all

/-- The content octets produced from a native unsigned value pass the
`Unsigned` decoder's own canonicity check. -/
theorem unsigned_take_fromU32 (n : Nat) :
    Unsigned.take_content_from (Unsigned.fromU32 n)
      = some (Unsigned.fromU32 n) := by
  unfold Unsigned.fromU32 u32ToEncodedBytes
  cases hds : beBytes n with
  | nil => exact absurd hds (beBytes_ne_nil n)
  | cons a t =>
    simp only [hds, List.headD]
    split
    · rename_i ha
      -- no leading zero added: first octet is `a` with clear high bit
      rcases t with _ | ⟨b, t⟩
      · -- singleton [a]
        unfold Unsigned.take_content_from
        simp [ha]
      · -- a :: b :: t : if a = 0 then n = 0, contradicting two digits
        have hane : a ≠ 0 := by
          intro h0
          rcases Nat.eq_zero_or_pos n with hn | hn
          · rw [hn] at hds
            rw [beBytes] at hds
            simp at hds
          · have := beBytes_headD_pos n hn
            rw [hds] at this
            simp [h0] at this
        have ha255 : a ≠ 0xFF := by
          intro h255
          rw [h255] at ha
          simp at ha
        unfold Unsigned.take_content_from
        simp [ha, hane, ha255]
    · rename_i ha
      -- leading zero added: second octet is `a` with set high bit
      unfold Unsigned.take_content_from
      simp [ha]

/-- `encoded_len` of a sequence is the sum of the elements' lengths. -/
theorem encodedLenList_eq_sum (vs : ValueList) (mode : Mode) :
    encodedLenList vs mode
      = (vs.toList.map (fun v => encodedLen v mode)).sum := by
  cases vs with
  | nil => rfl
  | cons v vs =>
      simp [encodedLenList, ValueList.toList, encodedLenList_eq_sum vs mode]

/-- The output of a sequence is the concatenation of the elements'
outputs in order. -/
theorem outputList_eq_flatten (vs : ValueList) (mode : Mode) :
    outputList vs mode
      = (vs.toList.map (fun v => output v mode)).flatten := by
  cases vs with
  | nil => rfl
  | cons v vs =>
      simp [outputList, ValueList.toList, outputList_eq_flatten vs mode]

/-! ## Claims -/

/-- C1: For every `Values` implementor of this core (any `Value` tree
whose primitive leaves honour the length contract) and every mode, a
successful `write_encoded(mode, sink)` on the unmodified value appends
exactly `output v mode` to the sink, and the byte count it writes equals
`encoded_len(mode)`. -/
theorem c1_encoded_len_matches_write (v : Value) (mode : Mode)
    (s : List Nat) (h : leavesConsistent v) :
    writeEncoded vecWrite v mode s = some (s ++ output v mode)
      ∧ (output v mode).length = encodedLen v mode :=
  ⟨writeEncoded_vecWrite v mode s, output_length v mode h⟩

/-- Witness for C1 at a concrete two-element tree in mode BER. -/
theorem c1_witness :
    writeEncoded vecWrite
        (.pair (.prim (fun _ => 2) (fun _ => [1, 2])) .nothing) .Ber []
      = some ([] ++ output
          (.pair (.prim (fun _ => 2) (fun _ => [1, 2])) .nothing) .Ber)
      ∧ (output (.pair (.prim (fun _ => 2) (fun _ => [1, 2]))
          .nothing) .Ber).length
        = encodedLen (.pair (.prim (fun _ => 2) (fun _ => [1, 2]))
          .nothing) .Ber :=
  c1_encoded_len_matches_write _ .Ber []
    (by simp [leavesConsistent, leavesConsistentList])

/-- C2: For every inner implementor, a `Constructed` under CER writes, in
order, the tag with the constructed bit set, the single indefinite-length
octet `0x80`, the inner content's encoding, and exactly the two octets
`00 00`; its `encoded_len` under CER is the tag's encoded length plus the
indefinite marker's length plus the inner content length plus 2. -/
theorem c2_cer_framing (tag : Tag) (inner : Value) :
    (∀ s : List Nat,
      writeEncoded vecWrite (.constructed tag inner) .Cer s
        = some (s ++ (tag.writeBytes true
            ++ ([0x80] ++ output inner .Cer ++ [0x00, 0x00]))))
      ∧ encodedLen (.constructed tag inner) .Cer
        = tag.encoded_len + Length.Indefinite.encoded_len
          + encodedLen inner .Cer + 2 := by
  constructor
  · intro s
    rw [writeEncoded_vecWrite]
    simp [output, Length.writeBytes, endOfValueBytes]
  · simp [encodedLen, Length.encoded_len, Length.writeBytes,
      endOfValueEncodedLen, Tag.encoded_len]
    omega

/-- C3: For every inner implementor whose leaves honour the length
contract, a `Constructed` under BER or DER writes, in order, the tag with
the constructed bit set, a definite-length field whose count exactly
equals the inner content's encoded byte length for that mode, and the
inner content, with nothing after it (no end-of-contents marker); BER and
DER are treated identically by this framing. -/
theorem c3_ber_der_framing (tag : Tag) (inner : Value) (mode : Mode)
    (hm : mode = .Ber ∨ mode = .Der) (h : leavesConsistent inner) :
    (∀ s : List Nat,
      writeEncoded vecWrite (.constructed tag inner) mode s
        = some (s ++ (tag.writeBytes true
            ++ ((Length.Definite (encodedLen inner mode)).writeBytes
              ++ output inner mode))))
      ∧ encodedLen inner mode = (output inner mode).length
      ∧ encodedLen (.constructed tag inner) mode
        = tag.encoded_len
          + (Length.Definite (encodedLen inner mode)).encoded_len
          + encodedLen inner mode := by
  rcases hm with hm | hm
  · subst hm
    refine ⟨?_, (output_length inner .Ber h).symm, ?_⟩
    · intro s
      rw [writeEncoded_vecWrite]
      simp [output]
    · simp [encodedLen, Tag.encoded_len]
      omega
  · subst hm
    refine ⟨?_, (output_length inner .Der h).symm, ?_⟩
    · intro s
      rw [writeEncoded_vecWrite]
      simp [output]
    · simp [encodedLen, Tag.encoded_len]
      omega

/-- Witness for C3 at a concrete primitive leaf under an INTEGER tag in
mode BER. -/
theorem c3_witness :
    (∀ s : List Nat,
      writeEncoded vecWrite
          (.constructed Tag.INTEGER (.prim (fun _ => 1) (fun _ => [7])))
          .Ber s
        = some (s ++ (Tag.INTEGER.writeBytes true
            ++ ((Length.Definite (encodedLen
                (.prim (fun _ => 1) (fun _ => [7])) .Ber)).writeBytes
              ++ output (.prim (fun _ => 1) (fun _ => [7])) .Ber))))
      ∧ encodedLen (.prim (fun _ => 1) (fun _ => [7])) .Ber
        = (output (.prim (fun _ => 1) (fun _ => [7])) .Ber).length
      ∧ encodedLen (.constructed Tag.INTEGER
          (.prim (fun _ => 1) (fun _ => [7]))) .Ber
        = Tag.INTEGER.encoded_len
          + (Length.Definite (encodedLen
              (.prim (fun _ => 1) (fun _ => [7])) .Ber)).encoded_len
          + encodedLen (.prim (fun _ => 1) (fun _ => [7])) .Ber :=
  c3_ber_der_framing Tag.INTEGER _ .Ber (Or.inl rfl)
    (by simp [leavesConsistent])

/-- C4: `Integer::take_content_from` fails as malformed exactly when the
content octets are empty, or the first octet is `0x00` and a second octet
exists with its high bit clear, or the first octet is `0xFF` and a second
octet exists with its high bit set; in every other case it succeeds with
the raw content octets unmodified. In particular `[0x00, 0x00]`,
`[0xFF, 0x80]` and `[]` all fail. -/
theorem c4_integer_take_characterization (res : List Nat) :
    (Integer.take_content_from res = none ↔
      (res = []
        ∨ (res.get? 0 = some 0x00
            ∧ ∃ b, res.get? 1 = some b ∧ b &&& 0x80 = 0)
        ∨ (res.get? 0 = some 0xFF
            ∧ ∃ b, res.get? 1 = some b ∧ b &&& 0x80 ≠ 0)))
      ∧ (Integer.take_content_from res = none
          ∨ Integer.take_content_from res = some res)
      ∧ Integer.take_content_from [0x00, 0x00] = none
      ∧ Integer.take_content_from [0xFF, 0x80] = none
      ∧ Integer.take_content_from [] = none := by
  refine ⟨?_, ?_, by decide, by decide, by decide⟩
  · rcases res with _ | ⟨a, _ | ⟨b, rest⟩⟩
    · simp [Integer.take_content_from]
    · simp [Integer.take_content_from]
    · by_cases hb : b &&& 0x80 = 0
      · by_cases ha : a = 0
        · subst ha
          simp [Integer.take_content_from, hb]
        · have ha255 : (some a = some 0xFF ∧ (some (b &&& 128 != 0)
              : Option Bool) = some true) = False := by
            simp [hb]
          simp [Integer.take_content_from, hb, ha]
      · by_cases ha : a = 0xFF
        · subst ha
          simp [Integer.take_content_from, hb]
        · by_cases ha0 : a = 0
          · subst ha0
            simp [Integer.take_content_from, hb]
          · simp [Integer.take_content_from, hb, ha, ha0]
  · unfold Integer.take_content_from
    split_ifs
    all_goals simp

/-- C5: `Unsigned::take_content_from` fails as malformed whenever the
first content octet has its high bit set, regardless of any following
octet; in particular `[0x80]` fails as `Unsigned` while the same content
succeeds as `Integer`. -/
theorem c5_unsigned_sign_rejection (res : List Nat) :
    (∀ a, res.get? 0 = some a → a &&& 0x80 ≠ 0 →
        Unsigned.take_content_from res = none)
      ∧ Unsigned.take_content_from [0x80] = none
      ∧ Integer.take_content_from [0x80] = some [0x80] := by
  refine ⟨?_, by decide, by decide⟩
  intro a ha hbit
  unfold Unsigned.take_content_from
  have h0 : a ≠ 0 := by
    intro h
    subst h
    simp at hbit
  split_ifs with h1 h2 h3 h4
  · rfl
  · rfl
  · rfl
  · rfl
  · exfalso
    apply h3
    rw [ha]
    simp [hbit]

/-- Witness for C5 at the concrete content `[0x90]`. -/
theorem c5_witness : Unsigned.take_content_from [0x90] = none :=
  (c5_unsigned_sign_rejection [0x90]).1 0x90 rfl (by decide)

/-- C7: For every mode, every sink and every populated variant, `Choice2`
and `Choice3` forward both `encoded_len` and `write_encoded` unmodified
to the inner value, and the produced bytes are identical to encoding the
inner value directly. -/
theorem c7_choice_delegation {σ : Type} (wa : σ → List Nat → Option σ)
    (x : Value) (mode : Mode) (s : σ) :
    encodedLen (.choice2One x) mode = encodedLen x mode
      ∧ encodedLen (.choice2Two x) mode = encodedLen x mode
      ∧ encodedLen (.choice3One x) mode = encodedLen x mode
      ∧ encodedLen (.choice3Two x) mode = encodedLen x mode
      ∧ encodedLen (.choice3Three x) mode = encodedLen x mode
      ∧ writeEncoded wa (.choice2One x) mode s = writeEncoded wa x mode s
      ∧ writeEncoded wa (.choice2Two x) mode s = writeEncoded wa x mode s
      ∧ writeEncoded wa (.choice3One x) mode s = writeEncoded wa x mode s
      ∧ writeEncoded wa (.choice3Two x) mode s = writeEncoded wa x mode s
      ∧ writeEncoded wa (.choice3Three x) mode s
        = writeEncoded wa x mode s
      ∧ output (.choice2One x) mode = output x mode
      ∧ output (.choice2Two x) mode = output x mode
      ∧ output (.choice3One x) mode = output x mode
      ∧ output (.choice3Two x) mode = output x mode
      ∧ output (.choice3Three x) mode = output x mode := by
  refine ⟨?_, ?_, ?_, ?_, ?_, ?_, ?_, ?_, ?_, ?_, ?_, ?_, ?_, ?_, ?_⟩
  all_goals first
    | simp [encodedLen]
    | simp [writeEncoded]
    | simp [output]

/-- C6: Converting a native unsigned integer to `Unsigned` produces the
minimal big-endian content octets — the base-256 digits of the value,
with a single `0x00` prepended exactly when the leading digit has its
high bit set — so the octets denote the original value, their first octet
has a clear high bit, and they pass the decoder's canonicity check;
concretely, 300 gives `[0x01, 0x2C]` and 128 gives `[0x00, 0x80]`. -/
theorem c6_from_u32 :
    Unsigned.fromU32 300 = [0x01, 0x2C]
      ∧ Unsigned.fromU32 128 = [0x00, 0x80]
      ∧ (∀ n : Nat, Unsigned.fromU32 n
          = if (beBytes n).headD 0 &&& 0x80 = 0 then beBytes n
            else 0x00 :: beBytes n)
      ∧ (∀ n : Nat, beVal (Unsigned.fromU32 n) = n)
      ∧ (∀ n : Nat, (Unsigned.fromU32 n).headD 0 &&& 0x80 = 0)
      ∧ (∀ n : Nat, Unsigned.take_content_from (Unsigned.fromU32 n)
          = some (Unsigned.fromU32 n)) := by
  have h300 : beBytes 300 = [1, 44] := by
    rw [beBytes, beBytes]
    norm_num
  have h128 : beBytes 128 = [128] := by
    rw [beBytes]
    norm_num
  refine ⟨?_, ?_, ?_, ?_, ?_, unsigned_take_fromU32⟩
  · simp [Unsigned.fromU32, u32ToEncodedBytes, h300]
  · simp [Unsigned.fromU32, u32ToEncodedBytes, h128]
  · intro n
    simp [Unsigned.fromU32, u32ToEncodedBytes]
  · intro n
    simp only [Unsigned.fromU32, u32ToEncodedBytes]
    split
    · exact beVal_beBytes n
    · rw [beVal_cons_zero]
      exact beVal_beBytes n
  · intro n
    simp only [Unsigned.fromU32, u32ToEncodedBytes]
    split
    · rename_i h
      cases hds : beBytes n with
      | nil => exact absurd hds (beBytes_ne_nil n)
      | cons a t =>
          rw [hds] at h
          simpa using h
    · simp

/-- C8: For every ordered sequence of values (slice or `Vec`) and every
mode, `encoded_len` is the sum of the elements' lengths, the written
bytes are the concatenation of the elements' encodings in element order
(the empty sequence yields zero bytes), and writing aborts on the first
element failure. -/
theorem c8_sequence_concatenation (vs : ValueList) (mode : Mode)
    (s : List Nat) :
    encodedLen (.slice vs) mode
        = (vs.toList.map (fun v => encodedLen v mode)).sum
      ∧ encodedLen (.vec vs) mode
        = (vs.toList.map (fun v => encodedLen v mode)).sum
      ∧ writeEncoded vecWrite (.slice vs) mode s
        = some (s ++ (vs.toList.map (fun v => output v mode)).flatten)
      ∧ writeEncoded vecWrite (.vec vs) mode s
        = some (s ++ (vs.toList.map (fun v => output v mode)).flatten)
      ∧ writeEncoded vecWrite (.slice .nil) mode s = some s
      ∧ (∀ {σ : Type} (wa : σ → List Nat → Option σ) (v : Value)
          (rest : ValueList) (t : σ),
            writeEncoded wa v mode t = none →
            writeEncoded wa (.slice (.cons v rest)) mode t = none
              ∧ writeEncoded wa (.vec (.cons v rest)) mode t = none) := by
  refine ⟨?_, ?_, ?_, ?_, ?_, ?_⟩
  · simp [encodedLen, encodedLenList_eq_sum]
  · simp [encodedLen, encodedLenList_eq_sum]
  · rw [writeEncoded_vecWrite]
    simp [output, outputList_eq_flatten]
  · rw [writeEncoded_vecWrite]
    simp [output, outputList_eq_flatten]
  · rw [writeEncoded_vecWrite]
    simp [output, outputList]
  · intro σ wa v rest t h
    constructor
    · simp [writeEncoded, writeEncodedList, h]
    · simp [writeEncoded, writeEncodedList, h]

/-- Witness for C8's abort behaviour at an always-failing sink. -/
theorem c8_witness :
    writeEncoded (fun (_ : Unit) (_ : List Nat) => (none : Option Unit))
        (.slice (.cons (.prim (fun _ => 0) (fun _ => [])) .nil)) .Ber ()
      = none
      ∧ writeEncoded (fun (_ : Unit) (_ : List Nat) => (none : Option Unit))
        (.vec (.cons (.prim (fun _ => 0) (fun _ => [])) .nil)) .Ber ()
      = none :=
  (c8_sequence_concatenation .nil .Ber []).2.2.2.2.2
    (fun _ _ => none) _ .nil () (by simp [writeEncoded])

/-- C9: For every `Unsigned` value (represented by its wrapped buffer)
and every mode, the content encoding is mode-independent and is exactly
the buffer: `encoded_len` is the buffer's length and `write_encoded`
writes precisely the buffer's bytes; hence decoding content octets and
re-encoding the result reproduces the octets exactly. -/
theorem c9_unsigned_content (buf : List Nat) (mode mode2 : Mode)
    {σ : Type} (wa : σ → List Nat → Option σ) (s : σ) (c r : List Nat) :
    Unsigned.encoded_len buf mode = buf.length
      ∧ Unsigned.encoded_len buf mode = Unsigned.encoded_len buf mode2
      ∧ Unsigned.write_encoded wa buf mode s = wa s buf
      ∧ (Unsigned.take_content_from c = some r →
          Unsigned.write_encoded wa r mode s = wa s c
            ∧ Unsigned.encoded_len r mode = c.length) := by
  refine ⟨rfl, rfl, rfl, ?_⟩
  intro h
  have he := unsigned_take_some_eq c r h
  subst he
  exact ⟨rfl, rfl⟩

/-- Witness for C9's round trip at the concrete content `[0x05]`. -/
theorem c9_witness :
    Unsigned.write_encoded vecWrite [5] .Ber [] = vecWrite [] [5]
      ∧ Unsigned.encoded_len [5] .Ber = ([5] : List Nat).length :=
  (c9_unsigned_content [5] .Ber .Der vecWrite [] [5] [5]).2.2.2 (by decide)

/-- C10: For every value of this core and every mode, `to_captured`
never panics: the in-memory sink never fails, so the internal unwrap is
unreachable, and the captured bytes are exactly what `write_encoded`
produces for that mode. -/
theorem c10_to_captured_total (v : Value) (mode : Mode) :
    toCaptured v mode = some (output v mode, mode)
      ∧ writeEncoded vecWrite v mode [] = some (output v mode) := by
  have h := writeEncoded_vecWrite v mode []
  rw [List.nil_append] at h
  constructor
  · unfold toCaptured
    rw [h]
  · exact h

end Bcder
